import Mathlib

/-!
Shallow embedding of the `goindex` inverted-index engine (package `index`,
files `index.go` and `query.go`) together with theorems checking the
natural-language specification against it.

Modelling conventions:
* Machine integers become `Nat`; the 32-bit local-id counter applies
  `% 2 ^ 32` where the Go code converts the `int32` counter to `uint32`
  (two's-complement wrap composed with the unsigned cast is exactly
  `k % 2 ^ 32` after `k` increments).
* A posting chunk (`PostChunk`, a 4096-slot array plus a valid count) is
  modelled by the list of its valid prefix `IDs[0..Length)`; the chunk
  stack reachable from a `PostSet`'s head pointer is a `List (List Nat)`,
  head chunk first, and the `nil` chunk pointer is the empty list.
* Go maps are association lists with first-match lookup.
* Atomics and the map locks are elided (sequential setting), but the
  per-list lock loop of `AddPost` is modelled: a call whose word list
  contains a duplicate locks the same non-reentrant `sync.Mutex` twice
  and self-deadlocks before drawing a local id or appending anything
  (`PostIndex.addPostLocked` returns `none` for such a call);
  `PostIndex.addPost` is the state transition of a completed call.
* Go passes the fixed-size `[128]uint32` query buffer **by value**; the
  model mirrors this by having `NextChunk` return the callee's filled
  copy, which the calling `QueryNode` frame discards, exactly as the
  source does.
* Runtime panics (nil-pointer dereference, negative array index) are
  modelled by the `panic` outcome of `ExecResult`; unbounded loops carry
  explicit fuel, with `fuelOut` distinguishing exhaustion from a panic.
-/

/-- `ChunkSize` from `index.go`: capacity of one posting chunk. -/
def ChunkSize : Nat := 4096

/-- A posting chunk: the valid prefix `IDs[0..Length)` of the Go array. -/
abbrev PostChunk := List Nat

/-- A posting set, seen through its head-chunk pointer: the chunk stack,
newest chunk first.  The empty list stands for a `nil` chunk pointer; a
`PostSet` proper always has at least one chunk (`NewPostSet` stores an
empty chunk). -/
abbrev PostSet := List PostChunk

/-- `NewPostSet` from `index.go`: one empty chunk. -/
def NewPostSet : PostSet := [[]]

/-- `PostSet.AddPost` from `index.go`: if the head chunk is full, push a
fresh chunk holding only `id`; otherwise write `id` at the head chunk's
append position.  The `[]` case is unreachable for sets built by the
code (they always have a head chunk). -/
def PostSet.addPost (set : PostSet) (id : Nat) : PostSet :=
  match set with
  | [] => []
  | firstChunk :: rest =>
    if firstChunk.length = ChunkSize then [id] :: firstChunk :: rest
    else (firstChunk ++ [id]) :: rest

/-- First-match lookup in an association table keyed by strings (Go map
read). -/
def lookupTab {α : Type} : List (String × α) → String → Option α
  | [], _ => none
  | (k, v) :: rest, w => if k = w then some v else lookupTab rest w

/-- Update the entry for `w` in place (Go map write to an existing key;
entries are unique, so updating the first match is exact). -/
def updateTab {α : Type} : List (String × α) → String → (α → α) → List (String × α)
  | [], _, _ => []
  | (k, v) :: rest, w, f =>
    if k = w then (k, f v) :: rest else (k, v) :: updateTab rest w f

/-- `PostIndex` from `index.go`.  `nextLocalId` counts the `AddPost`
calls made so far (the raw counter before the `uint32` cast). -/
structure PostIndex where
  nextLocalId : Nat
  sets : List (String × PostSet)
  idMap : List (Nat × Nat)

/-- A zero-value `PostIndex{}`. -/
def emptyIndex : PostIndex := ⟨0, [], []⟩

/-- Character comparison used by `sort.Strings`: Go compares strings
byte-wise; for the ASCII data the claims use this coincides with
code-point order. -/
def charListLe : List Char → List Char → Bool
  | [], _ => true
  | _ :: _, [] => false
  | a :: as, b :: bs =>
    if a.toNat < b.toNat then true
    else if b.toNat < a.toNat then false
    else charListLe as bs

/-- String order used by `sort.Strings`. -/
def strLe (a b : String) : Bool := charListLe a.toList b.toList

/-- Insert into a sorted list (one step of the sort). -/
def insertSorted (x : String) : List String → List String
  | [] => [x]
  | y :: ys => if strLe x y then x :: y :: ys else y :: insertSorted x ys

/-- `sort.Strings` from `AddPost`: modelled as insertion sort; the claims
depend only on the result being a sorted permutation of the input. -/
def sortStrings : List String → List String
  | [] => []
  | x :: xs => insertSorted x (sortStrings xs)

/-- `PostIndex.findOrCreateSets` (net effect): after the call every word
of `sortedWords` has an entry; missing entries are created as fresh
`NewPostSet`s.  Duplicated words create a single entry, as in Go where
the second lookup finds the entry made for the first occurrence. -/
def ensureSets (tab : List (String × PostSet)) (ws : List String) :
    List (String × PostSet) :=
  ws.foldl
    (fun t w =>
      match lookupTab t w with
      | some _ => t
      | none => (w, NewPostSet) :: t)
    tab

/-- The append loop of `PostIndex.AddPost` (`for _, v := range sets {
v.AddPost(localId) }`): one append per entry of `sortedWords`; duplicate
words alias the same set in Go, hence append twice here as well. -/
def appendAll (tab : List (String × PostSet)) (ws : List String) (lid : Nat) :
    List (String × PostSet) :=
  ws.foldl (fun t w => updateTab t w (fun c => PostSet.addPost c lid)) tab

/-- `PostIndex.AddPost` from `index.go`: sort the words, resolve/create
the sets, draw the next local id (`uint32(atomic.AddInt32(...))`, i.e.
call count mod `2 ^ 32`), record the local→global mapping, append the
local id to each resolved set.  This is the effect of a **completed**
call; a call whose word list repeats a word never completes (the lock
loop self-deadlocks, see `PostIndex.addPostLocked`), so this transition
is faithful exactly for duplicate-free word lists. -/
def PostIndex.addPost (idx : PostIndex) (g : Nat) (words : List String) :
    PostIndex :=
  let sortedWords := sortStrings words
  let sets := ensureSets idx.sets sortedWords
  let localId := (idx.nextLocalId + 1) % 2 ^ 32
  { nextLocalId := idx.nextLocalId + 1
    sets := appendAll sets sortedWords localId
    idMap := (localId, g) :: idx.idMap }

/-- `PostIndex.findSetChunkForQuery`: head-chunk snapshot for a word, or
`none` when the word was never ingested. -/
def PostIndex.findSetChunkForQuery (idx : PostIndex) (word : String) :
    Option PostSet :=
  lookupTab idx.sets word

/-- Run a history of completed `AddPost` calls against a starting index. -/
def runFrom (idx : PostIndex) (h : List (Nat × List String)) : PostIndex :=
  h.foldl (fun i p => i.addPost p.1 p.2) idx

/-- Whether a word list contains a repeated entry.  In `AddPost`,
duplicated words resolve to the same `*PostSet` pointer, so the per-list
lock loop would lock the same mutex twice. -/
def hasDuplicate : List String → Bool
  | [] => false
  | x :: xs => xs.contains x || hasDuplicate xs

/-- `PostIndex.AddPost` including the per-list lock loop (`for _, v :=
range sets { v.SyncRoot.Lock(); defer v.SyncRoot.Unlock() }`).  The locks
are released only when the call returns, so when the sorted word list
contains a word twice the second `Lock()` on that word's non-reentrant
`sync.Mutex` blocks forever: the call self-deadlocks before the local id
is drawn, before the id mapping is recorded and before anything is
appended — modelled as `none` (the hung call never returns; the only
state it leaves behind is freshly created empty sets, which hold no ids).
With duplicate-free words all locks are distinct and the call completes
with the `PostIndex.addPost` transition. -/
def PostIndex.addPostLocked (idx : PostIndex) (g : Nat)
    (words : List String) : Option PostIndex :=
  if hasDuplicate (sortStrings words) then none
  else some (idx.addPost g words)

/-- Run a history of `AddPost` calls; a deadlocking call hangs the
program, so the rest of the history never executes (`none`). -/
def runLocked (idx : PostIndex) (h : List (Nat × List String)) :
    Option PostIndex :=
  h.foldl (fun acc p => acc.bind (fun i => i.addPostLocked p.1 p.2)) (some idx)

/-- All local ids stored in a chunk stack, oldest to newest (the order in
which they were appended). -/
def chainIds (chain : PostSet) : List Nat := chain.reverse.flatten

/-- `queryBufferSize` from `query.go`. -/
def queryBufferSize : Nat := 128

/-- `doneLength` from `query.go`. -/
def doneLength : Int := -1

mutual
/-- `QueryOperator` values from `query.go`: a terminal holds its chunk
pointer and chunk cursor; `AND`/`OR` hold their two child `QueryNode`
frames. -/
inductive QueryOperator : Type where
  | terminal : PostSet → Int → QueryOperator
  | and : QueryNode → QueryNode → QueryOperator
  | or : QueryNode → QueryNode → QueryOperator

/-- `QueryNode` from `query.go`: buffer, valid length, cursor, operator. -/
inductive QueryNode : Type where
  | mk : List Nat → Int → Nat → QueryOperator → QueryNode
end

def QueryNode.buffer : QueryNode → List Nat
  | .mk b _ _ _ => b

def QueryNode.length : QueryNode → Int
  | .mk _ l _ _ => l

def QueryNode.cursor : QueryNode → Nat
  | .mk _ _ c _ => c

def QueryNode.op : QueryNode → QueryOperator
  | .mk _ _ _ o => o

/-- `QueryNode.Current`: `q.buffer[q.cursor]`.  The cursor is always in
range when the code reads it, so the default never shows through. -/
def QueryNode.current (q : QueryNode) : Nat := q.buffer.getD q.cursor 0

/-- A zero-value 128-slot buffer. -/
def zerosBuf : List Nat := List.replicate queryBufferSize 0

/-- `QueryNode{op: op}`: zero value for buffer, length and cursor. -/
def mkQueryNode (op : QueryOperator) : QueryNode := .mk zerosBuf 0 0 op

/-- Outcome of running a piece of the query pipeline: a value, a Go
runtime panic, or fuel exhaustion (never the code's behaviour, only the
model's loop bound). -/
inductive ExecResult (α : Type) : Type where
  | ok : α → ExecResult α
  | panic : ExecResult α
  | fuelOut : ExecResult α
deriving Repr

/-- Read `chunk.IDs[cur]`: Go panics on a negative (or ≥ 4096) index；
slots at or beyond the valid count read as the array's zero value. -/
def readChunk (chunk : PostChunk) (cur : Int) : Option Nat :=
  if cur < 0 ∨ (ChunkSize : Int) ≤ cur then none
  else some (chunk.getD cur.toNat 0)

/-- The loop of `TerminalOperator.NextChunk`, with `n` the remaining
buffer slots (`queryBufferSize - i`).  When the chunk cursor is negative
the operator steps to `Current.Next`; if that pointer is nil the very
next read (`op.Current.Length`) dereferences nil — modelled as `none`. -/
def termLoop : Nat → PostSet → Int → List Nat → Nat →
    Option (List Nat × Nat × PostSet × Int)
  | 0, chain, cur, buf, i => some (buf, i, chain, cur)
  | n + 1, chain, cur, buf, i =>
    match chain with
    | [] => some (buf, i, [], cur)
    | chunk :: rest =>
      if cur < 0 then
        match rest with
        | [] => none
        | c2 :: rest2 =>
          let cur2 : Int := (c2.length : Int) - 1
          match readChunk c2 cur2 with
          | none => none
          | some v => termLoop n (c2 :: rest2) (cur2 - 1) (buf.set i v) (i + 1)
      else
        match readChunk chunk cur with
        | none => none
        | some v => termLoop n (chunk :: rest) (cur - 1) (buf.set i v) (i + 1)

/-- `TerminalOperator.NextChunk`: fills its (by-value) buffer copy and
returns it with the fill count and the operator's new state; `none` is a
runtime panic. -/
def termNextChunk (chain : PostSet) (cur : Int) (buf : List Nat) :
    Option (List Nat × Nat × PostSet × Int) :=
  termLoop queryBufferSize chain cur buf 0

/-- The two inner `for` loops of `AndOperator.nextMatch`: advance `node`
while its current value exceeds `bound`; `false` means the stream ended. -/
def gtLoop (mv : QueryNode → ExecResult (QueryNode × Bool)) :
    Nat → QueryNode → Nat → ExecResult (QueryNode × Bool)
  | 0, _, _ => .fuelOut
  | n + 1, node, bound =>
    if bound < node.current then
      match mv node with
      | .panic => .panic
      | .fuelOut => .fuelOut
      | .ok (node1, true) => gtLoop mv n node1 bound
      | .ok (node1, false) => .ok (node1, false)
    else .ok (node, true)

/-- The outer `for Left.Current() != Right.Current()` loop of
`nextMatch`. -/
def matchLoop (mv : QueryNode → ExecResult (QueryNode × Bool)) :
    Nat → QueryNode → QueryNode → ExecResult (QueryNode × QueryNode × Option Nat)
  | 0, _, _ => .fuelOut
  | n + 1, l, r =>
    if l.current = r.current then .ok (l, r, some l.current)
    else
      match gtLoop mv n l r.current with
      | .panic => .panic
      | .fuelOut => .fuelOut
      | .ok (l1, false) => .ok (l1, r, none)
      | .ok (l1, true) =>
        match gtLoop mv n r l1.current with
        | .panic => .panic
        | .fuelOut => .fuelOut
        | .ok (r1, false) => .ok (l1, r1, none)
        | .ok (r1, true) => matchLoop mv n l1 r1

/-- `AndOperator.nextMatch`: advance both children (short-circuiting on
the left, as `&&` does), then close the gap between their currents. -/
def nextMatchF (mv : QueryNode → ExecResult (QueryNode × Bool)) (n : Nat)
    (l r : QueryNode) : ExecResult (QueryNode × QueryNode × Option Nat) :=
  match mv l with
  | .panic => .panic
  | .fuelOut => .fuelOut
  | .ok (l1, false) => .ok (l1, r, none)
  | .ok (l1, true) =>
    match mv r with
    | .panic => .panic
    | .fuelOut => .fuelOut
    | .ok (r1, false) => .ok (l1, r1, none)
    | .ok (r1, true) => matchLoop mv n l1 r1

/-- The fill loop of `AndOperator.NextChunk`. -/
def andFillF (mv : QueryNode → ExecResult (QueryNode × Bool)) :
    Nat → QueryNode → QueryNode → List Nat → Nat →
    ExecResult (List Nat × Nat × QueryNode × QueryNode)
  | 0, _, _, _, _ => .fuelOut
  | n + 1, l, r, buf, i =>
    if i < queryBufferSize then
      match nextMatchF mv n l r with
      | .panic => .panic
      | .fuelOut => .fuelOut
      | .ok (l1, r1, none) => .ok (buf, i, l1, r1)
      | .ok (l1, r1, some v) => andFillF mv n l1 r1 (buf.set i v) (i + 1)
    else .ok (buf, i, l, r)

/-- The initial advance of `OrOperator.NextChunk`.  The source guards it
with `if !op.Left.Started()`, and `Started()` returns `length ==
beforeStartedLength`, so the children are advanced exactly when the left
length is non-zero — modelled verbatim. -/
def orInitF (mv : QueryNode → ExecResult (QueryNode × Bool)) (l r : QueryNode) :
    ExecResult (QueryNode × QueryNode) :=
  if l.length = 0 then .ok (l, r)
  else
    match mv l with
    | .panic => .panic
    | .fuelOut => .fuelOut
    | .ok (l1, _) =>
      match mv r with
      | .panic => .panic
      | .fuelOut => .fuelOut
      | .ok (r1, _) => .ok (l1, r1)

/-- The merge loop of `OrOperator.NextChunk` (both children live). -/
def orBothF (mv : QueryNode → ExecResult (QueryNode × Bool)) :
    Nat → QueryNode → QueryNode → List Nat → Nat →
    ExecResult (QueryNode × QueryNode × List Nat × Nat)
  | 0, _, _, _, _ => .fuelOut
  | n + 1, l, r, buf, i =>
    if i < queryBufferSize ∧ l.length ≠ doneLength ∧ r.length ≠ doneLength then
      if r.current < l.current then
        match mv l with
        | .panic => .panic
        | .fuelOut => .fuelOut
        | .ok (l1, _) => orBothF mv n l1 r (buf.set i l.current) (i + 1)
      else if l.current < r.current then
        match mv r with
        | .panic => .panic
        | .fuelOut => .fuelOut
        | .ok (r1, _) => orBothF mv n l r1 (buf.set i r.current) (i + 1)
      else
        match mv l with
        | .panic => .panic
        | .fuelOut => .fuelOut
        | .ok (l1, _) =>
          match mv r with
          | .panic => .panic
          | .fuelOut => .fuelOut
          | .ok (r1, _) => orBothF mv n l1 r1 (buf.set i l.current) (i + 1)
    else .ok (l, r, buf, i)

/-- The two drain loops of `OrOperator.NextChunk`. -/
def orDrainF (mv : QueryNode → ExecResult (QueryNode × Bool)) :
    Nat → QueryNode → List Nat → Nat → ExecResult (QueryNode × List Nat × Nat)
  | 0, _, _, _ => .fuelOut
  | n + 1, node, buf, i =>
    if i < queryBufferSize ∧ node.length ≠ doneLength then
      match mv node with
      | .panic => .panic
      | .fuelOut => .fuelOut
      | .ok (node1, _) => orDrainF mv n node1 (buf.set i node.current) (i + 1)
    else .ok (node, buf, i)

/-- `OrOperator.NextChunk` assembled from its phases. -/
def orNextChunkF (mv : QueryNode → ExecResult (QueryNode × Bool)) (n : Nat)
    (l r : QueryNode) (buf : List Nat) :
    ExecResult (List Nat × Nat × QueryOperator) :=
  match orInitF mv l r with
  | .panic => .panic
  | .fuelOut => .fuelOut
  | .ok (l1, r1) =>
    match orBothF mv n l1 r1 buf 0 with
    | .panic => .panic
    | .fuelOut => .fuelOut
    | .ok (l2, r2, buf2, i2) =>
      match orDrainF mv n l2 buf2 i2 with
      | .panic => .panic
      | .fuelOut => .fuelOut
      | .ok (l3, buf3, i3) =>
        match orDrainF mv n r2 buf3 i3 with
        | .panic => .panic
        | .fuelOut => .fuelOut
        | .ok (r3, buf4, i4) => .ok (buf4, i4, .or l3 r3)

/-- `NextChunk` dispatch over the three operator kinds.  The result
carries the callee's buffer copy, the fill count, and the operator's new
state. -/
def nextChunkF (mv : QueryNode → ExecResult (QueryNode × Bool)) (n : Nat) :
    QueryOperator → List Nat → ExecResult (List Nat × Nat × QueryOperator)
  | .terminal chain cur, buf =>
    match termNextChunk chain cur buf with
    | none => .panic
    | some (buf2, cnt, chain2, cur2) => .ok (buf2, cnt, .terminal chain2 cur2)
  | .and l r, buf =>
    match andFillF mv n l r buf 0 with
    | .panic => .panic
    | .fuelOut => .fuelOut
    | .ok (buf2, i, l1, r1) => .ok (buf2, i, .and l1 r1)
  | .or l r, buf => orNextChunkF mv n l r buf

/-- `QueryNode.MoveNext`: advance the cursor; on reaching the valid
length, pull the next chunk from the operator.  The pull passes the
frame's buffer **by value** and keeps only the returned count, so the
frame's own buffer is never written — exactly as in the source. -/
def moveNextF : Nat → QueryNode → ExecResult (QueryNode × Bool)
  | 0, _ => .fuelOut
  | n + 1, q =>
    if q.length = doneLength then .ok (q, false)
    else
      if ((q.cursor + 1 : Nat) : Int) < q.length then
        .ok (.mk q.buffer q.length (q.cursor + 1) q.op, true)
      else
        match nextChunkF (moveNextF n) n q.op q.buffer with
        | .panic => .panic
        | .fuelOut => .fuelOut
        | .ok (_, cnt, op2) =>
          if cnt = 0 then .ok (.mk q.buffer doneLength 0 op2, false)
          else .ok (.mk q.buffer (cnt : Int) 0 op2, true)

/-- Split a character list at the first `'"'`. -/
def splitAtQuote : List Char → Option (List Char × List Char)
  | [] => none
  | c :: cs =>
    if c = '"' then some ([], cs)
    else (splitAtQuote cs).map (fun p => (c :: p.1, p.2))

/-- The string-literal scan of `ParseQuery`: after the opening quote the
next character is consumed unconditionally as body text (`i++; start :=
i; i++`), then the scan runs to the next `'"'`.  Returns the body and
the characters after the closing quote. -/
def scanLiteral : List Char → Option (List Char × List Char)
  | [] => none
  | c1 :: r2 => (splitAtQuote r2).map (fun p => (c1 :: p.1, p.2))

/-- The scanning loop of `ParseQuery`, with fuel (always at least the
input length plus one, so the fuel case is unreachable; every step
consumes at least one character). -/
def parseLoopF (idx : PostIndex) :
    Nat → List Char → Nat → List QueryOperator →
    Except (Nat × String) (List QueryOperator)
  | 0, _, _, _ => .error (0, "out of fuel")
  | _ + 1, [], _, stack => .ok stack
  | n + 1, c :: rest, pos, stack =>
    if c = '&' then
      match stack with
      | a :: b :: s =>
        parseLoopF idx n rest (pos + 1) (.and (mkQueryNode a) (mkQueryNode b) :: s)
      | _ => .error (pos, "Need two operands for &")
    else if c = '|' then
      match stack with
      | a :: b :: s =>
        parseLoopF idx n rest (pos + 1) (.or (mkQueryNode a) (mkQueryNode b) :: s)
      | _ => .error (pos, "Need two operands for |")
    else if c = '"' then
      match scanLiteral rest with
      | none => .error (pos, "Unterminated string constant")
      | some (body, rem) =>
        let chunk := (idx.findSetChunkForQuery (String.mk body)).getD []
        parseLoopF idx n rem (pos + body.length + 2) (.terminal chunk 0 :: stack)
    else .error (pos, "Unexpected character")

/-- `ParseQuery` from `query.go`.  A pushed terminal gets the head-chunk
snapshot and a zero-value chunk cursor (`&TerminalOperator{Current:
chunk}` leaves `ChunkCursor` at 0). -/
def parseQuery (idx : PostIndex) (q : List Char) :
    Except (Nat × String) QueryNode :=
  match parseLoopF idx (q.length + 1) q 0 [] with
  | .error e => .error e
  | .ok [op] => .ok (mkQueryNode op)
  | .ok _ => .error (q.length, "Unterminated query")

/-- Result of a whole query call. -/
inductive QueryResult : Type where
  | results : List Nat → QueryResult
  | parseError : Nat → String → QueryResult
  | panic : QueryResult
  | fuelOut : QueryResult
deriving DecidableEq, Repr

/-- Translate local ids to global ids through the id map, dropping ids
without a mapping (the spec's robustness safeguard). -/
def translateIds (idMap : List (Nat × Nat)) (ids : List Nat) : List Nat :=
  ids.filterMap (fun lid => (idMap.find? (fun p => p.1 = lid)).map Prod.snd)

/-- Modelled from the spec: the top-N driver of `QueryPosts(expression,
limit)`, which is absent from the sources (only its tests and callers
are).  Per §4.D it repeatedly pulls local ids from the root `QueryNode`
returned by `ParseQuery` until `limit` ids are collected or the stream
ends, then translates them to global ids. -/
def driveLoop : Nat → Nat → QueryNode → List Nat → ExecResult (List Nat)
  | 0, _, _, _ => .fuelOut
  | n + 1, limit, node, acc =>
    if acc.length < limit then
      match moveNextF n node with
      | .panic => .panic
      | .fuelOut => .fuelOut
      | .ok (node1, true) => driveLoop n limit node1 (acc ++ [node1.current])
      | .ok (_, false) => .ok acc
    else .ok acc

/-- Modelled from the spec: `QueryPosts` — parse, drain, translate. -/
def queryPosts (idx : PostIndex) (q : List Char) (limit : Nat) (fuel : Nat) :
    QueryResult :=
  match parseQuery idx q with
  | .error (p, m) => .parseError p m
  | .ok root =>
    match driveLoop fuel limit root [] with
    | .panic => .panic
    | .fuelOut => .fuelOut
    | .ok lids => .results (translateIds idx.idMap lids)

/-! ### Helper lemmas: sorting -/

theorem insertSorted_perm (x : String) (l : List String) :
    (insertSorted x l).Perm (x :: l) := by
  induction l with
  | nil => simp [insertSorted]
  | cons y ys ih =>
    simp only [insertSorted]
    split
    · exact List.Perm.refl _
    · exact (ih.cons y).trans (List.Perm.swap x y ys)

theorem sortStrings_perm (l : List String) : (sortStrings l).Perm l := by
  induction l with
  | nil => exact List.Perm.refl _
  | cons x xs ih => exact (insertSorted_perm x (sortStrings xs)).trans (ih.cons x)

theorem sortStrings_nodup {l : List String} (h : l.Nodup) :
    (sortStrings l).Nodup := ((sortStrings_perm l).nodup_iff).mpr h

/-! ### Helper lemmas: association tables -/

theorem lookupTab_updateTab_eq {α : Type} (t : List (String × α)) (w : String)
    (f : α → α) : lookupTab (updateTab t w f) w = (lookupTab t w).map f := by
  induction t with
  | nil => rfl
  | cons p rest ih =>
    obtain ⟨k, v⟩ := p
    by_cases hk : k = w <;> simp [updateTab, lookupTab, hk, ih]

theorem lookupTab_updateTab_ne {α : Type} (t : List (String × α)) {w w' : String}
    (f : α → α) (h : w' ≠ w) :
    lookupTab (updateTab t w f) w' = lookupTab t w' := by
  induction t with
  | nil => rfl
  | cons p rest ih =>
    obtain ⟨k, v⟩ := p
    by_cases hk : k = w
    · subst hk
      simp [updateTab, lookupTab, Ne.symm h]
    · by_cases hk' : k = w' <;> simp [updateTab, lookupTab, hk, hk', h, ih]

theorem lookupTab_ensureSets (t : List (String × PostSet)) (ws : List String)
    (w : String) :
    lookupTab (ensureSets t ws) w =
      match lookupTab t w with
      | some c => some c
      | none => if w ∈ ws then some NewPostSet else none := by
  induction ws generalizing t with
  | nil => cases h : lookupTab t w <;> simp [ensureSets, h]
  | cons a ws ih =>
    have step : ensureSets t (a :: ws) =
        ensureSets (match lookupTab t a with
          | some _ => t
          | none => (a, NewPostSet) :: t) ws := rfl
    rw [step]
    cases ha : lookupTab t a with
    | some c0 =>
      rw [ih]
      cases hw : lookupTab t w with
      | some c => simp
      | none =>
        have haw : w ≠ a := by
          intro h; rw [h, ha] at hw; exact Option.noConfusion hw
        simp [List.mem_cons, haw]
    | none =>
      rw [ih]
      by_cases haw : a = w
      · subst haw
        simp [lookupTab, ha]
      · simp [lookupTab, haw]
        cases hw : lookupTab t w <;> simp [List.mem_cons, Ne.symm haw]

theorem lookupTab_appendAll_not_mem {t : List (String × PostSet)}
    {ws : List String} {lid : Nat} {w : String} (h : w ∉ ws) :
    lookupTab (appendAll t ws lid) w = lookupTab t w := by
  induction ws generalizing t with
  | nil => rfl
  | cons a ws ih =>
    have hne : w ≠ a := fun hh => h (hh ▸ List.mem_cons_self a ws)
    have step : appendAll t (a :: ws) lid =
        appendAll (updateTab t a (fun c => PostSet.addPost c lid)) ws lid := rfl
    rw [step, ih (fun hw => h (List.mem_cons_of_mem a hw)),
      lookupTab_updateTab_ne _ _ hne]

theorem lookupTab_appendAll_mem {t : List (String × PostSet)}
    {ws : List String} {lid : Nat} {w : String} (h : w ∈ ws) (hnd : ws.Nodup) :
    lookupTab (appendAll t ws lid) w =
      (lookupTab t w).map (fun c => PostSet.addPost c lid) := by
  induction ws generalizing t with
  | nil => exact absurd h (List.not_mem_nil w)
  | cons a ws ih =>
    have step : appendAll t (a :: ws) lid =
        appendAll (updateTab t a (fun c => PostSet.addPost c lid)) ws lid := rfl
    rw [step]
    by_cases haw : w = a
    · subst haw
      have hnw : w ∉ ws := (List.nodup_cons.mp hnd).1
      rw [lookupTab_appendAll_not_mem hnw, lookupTab_updateTab_eq]
    · have hw : w ∈ ws := (List.mem_cons.mp h).resolve_left haw
      rw [ih hw (List.nodup_cons.mp hnd).2, lookupTab_updateTab_ne _ _ haw]

/-! ### Helper lemmas: posting chains -/

theorem PostSet.addPost_ne_nil {c : PostSet} {lid : Nat} (h : c ≠ []) :
    PostSet.addPost c lid ≠ [] := by
  cases c with
  | nil => exact absurd rfl h
  | cons first rest =>
    simp only [PostSet.addPost]
    split <;> simp

theorem chainIds_addPost {c : PostSet} {lid : Nat} (h : c ≠ []) :
    chainIds (PostSet.addPost c lid) = chainIds c ++ [lid] := by
  cases c with
  | nil => exact absurd rfl h
  | cons first rest =>
    simp only [PostSet.addPost]
    split
    · simp [chainIds]
    · simp [chainIds]

theorem chain'_append_singleton {ids : List Nat} {n : Nat}
    (h1 : List.Chain' (· < ·) ids) (h2 : ∀ x ∈ ids, x < n) :
    List.Chain' (· < ·) (ids ++ [n]) := by
  rw [List.chain'_append]
  refine ⟨h1, List.chain'_singleton n, ?_⟩
  intro x hx y hy
  rw [List.head?_cons, Option.mem_some_iff] at hy
  subst hy
  exact h2 x (List.mem_of_mem_getLast? hx)

/-! ### The ascending-list invariant -/

/-- Every posting list in the index is a nonempty chunk stack whose ids,
oldest to newest, are strictly ascending and bounded by the call
counter. -/
def IndexInv (idx : PostIndex) : Prop :=
  ∀ t c, lookupTab idx.sets t = some c →
    c ≠ [] ∧ List.Chain' (· < ·) (chainIds c) ∧
      ∀ id ∈ chainIds c, id ≤ idx.nextLocalId

theorem indexInv_empty : IndexInv emptyIndex := by
  intro t c hc
  exact Option.noConfusion hc

theorem indexInv_addPost {idx : PostIndex} {g : Nat} {ws : List String}
    (h : IndexInv idx) (hnd : ws.Nodup) (hlt : idx.nextLocalId + 1 < 2 ^ 32) :
    IndexInv (idx.addPost g ws) := by
  intro t c hc
  have hmod : (idx.nextLocalId + 1) % 2 ^ 32 = idx.nextLocalId + 1 :=
    Nat.mod_eq_of_lt hlt
  have hsnd : (sortStrings ws).Nodup := sortStrings_nodup hnd
  have hsets : (idx.addPost g ws).sets =
      appendAll (ensureSets idx.sets (sortStrings ws)) (sortStrings ws)
        ((idx.nextLocalId + 1) % 2 ^ 32) := rfl
  have hctr : (idx.addPost g ws).nextLocalId = idx.nextLocalId + 1 := rfl
  rw [hsets] at hc
  rw [hctr]
  by_cases ht : t ∈ sortStrings ws
  · rw [lookupTab_appendAll_mem ht hsnd, lookupTab_ensureSets] at hc
    -- resolve the ensured entry, then the append
    cases hold : lookupTab idx.sets t with
    | some c0 =>
      rw [hold] at hc
      simp only [Option.map_some', Option.some.injEq] at hc
      obtain ⟨hne, hasc, hbd⟩ := h t c0 hold
      subst hc
      rw [hmod, chainIds_addPost hne]
      refine ⟨PostSet.addPost_ne_nil hne, ?_, ?_⟩
      · exact chain'_append_singleton hasc
          (fun x hx => Nat.lt_succ_of_le (hbd x hx))
      · intro id hid
        rcases List.mem_append.mp hid with hid | hid
        · exact Nat.le_succ_of_le (hbd id hid)
        · rw [List.mem_singleton.mp hid]
    | none =>
      rw [hold, if_pos ht] at hc
      simp only [Option.map_some', Option.some.injEq] at hc
      subst hc
      rw [hmod, chainIds_addPost (by simp [NewPostSet])]
      have hids : chainIds NewPostSet = [] := rfl
      rw [hids]
      refine ⟨PostSet.addPost_ne_nil (by simp [NewPostSet]), ?_, ?_⟩
      · simp
      · intro id hid
        have : id = idx.nextLocalId + 1 := List.mem_singleton.mp (by simpa using hid)
        omega
  · rw [lookupTab_appendAll_not_mem ht, lookupTab_ensureSets] at hc
    cases hold : lookupTab idx.sets t with
    | some c0 =>
      rw [hold] at hc
      obtain ⟨hne, hasc, hbd⟩ := h t c0 hold
      cases hc
      exact ⟨hne, hasc, fun id hid => Nat.le_succ_of_le (hbd id hid)⟩
    | none =>
      rw [hold, if_neg ht] at hc
      exact Option.noConfusion hc

theorem runFrom_nextLocalId (idx : PostIndex) (h : List (Nat × List String)) :
    (runFrom idx h).nextLocalId = idx.nextLocalId + h.length := by
  induction h generalizing idx with
  | nil => simp [runFrom]
  | cons p rest ih =>
    have step : runFrom idx (p :: rest) = runFrom (idx.addPost p.1 p.2) rest := rfl
    rw [step, ih]
    simp [PostIndex.addPost]
    omega

theorem runFrom_indexInv {idx : PostIndex} {h : List (Nat × List String)}
    (hI : IndexInv idx) (hb : idx.nextLocalId + h.length < 2 ^ 32)
    (hnd : ∀ p ∈ h, p.2.Nodup) : IndexInv (runFrom idx h) := by
  induction h generalizing idx with
  | nil => exact hI
  | cons p rest ih =>
    have step : runFrom idx (p :: rest) = runFrom (idx.addPost p.1 p.2) rest := rfl
    rw [step]
    have h1 : idx.nextLocalId + 1 < 2 ^ 32 := by
      simp only [List.length_cons] at hb; omega
    refine ih (indexInv_addPost hI (hnd p (List.mem_cons_self p rest)) h1) ?_ ?_
    · have : (idx.addPost p.1 p.2).nextLocalId = idx.nextLocalId + 1 := rfl
      rw [this]
      simp only [List.length_cons] at hb
      omega
    · exact fun q hq => hnd q (List.mem_cons_of_mem p hq)

/-! ### Local-id assignment -/

theorem addPost_idMap_head (idx : PostIndex) (g : Nat) (ws : List String) :
    (idx.addPost g ws).idMap.head? =
      some ((idx.nextLocalId + 1) % 2 ^ 32, g) := rfl

theorem runFrom_idMap_fst (idx : PostIndex) (h : List (Nat × List String)) :
    (runFrom idx h).idMap.map Prod.fst =
      ((List.range' (idx.nextLocalId + 1) h.length).map
        (fun k => k % 2 ^ 32)).reverse ++ idx.idMap.map Prod.fst := by
  induction h generalizing idx with
  | nil => simp [runFrom]
  | cons p rest ih =>
    have step : runFrom idx (p :: rest) = runFrom (idx.addPost p.1 p.2) rest := rfl
    have hctr : (idx.addPost p.1 p.2).nextLocalId = idx.nextLocalId + 1 := rfl
    have hmap : (idx.addPost p.1 p.2).idMap =
        ((idx.nextLocalId + 1) % 2 ^ 32, p.1) :: idx.idMap := rfl
    rw [step, ih, hctr, hmap, List.length_cons, List.range'_succ]
    simp [List.append_assoc]

/-! ### Parser lemmas -/

theorem splitAtQuote_none {l : List Char} (h : splitAtQuote l = none) :
    '"' ∉ l := by
  induction l with
  | nil => simp
  | cons c cs ih =>
    simp only [splitAtQuote] at h
    by_cases hc : c = '"'
    · simp [hc] at h
    · rw [if_neg hc] at h
      cases hsp : splitAtQuote cs with
      | none => simp [Ne.symm hc, ih hsp]
      | some p => rw [hsp] at h; simp at h

theorem splitAtQuote_some {l b r : List Char} (h : splitAtQuote l = some (b, r)) :
    l = b ++ '"' :: r ∧ '"' ∉ b := by
  induction l generalizing b r with
  | nil => simp [splitAtQuote] at h
  | cons c cs ih =>
    simp only [splitAtQuote] at h
    by_cases hc : c = '"'
    · rw [if_pos hc] at h
      simp only [Option.some.injEq, Prod.mk.injEq] at h
      obtain ⟨hb, hr⟩ := h
      subst hb; subst hr; subst hc
      simp
    · rw [if_neg hc] at h
      cases hsp : splitAtQuote cs with
      | none => rw [hsp] at h; simp at h
      | some p =>
        rw [hsp] at h
        obtain ⟨pb, pr⟩ := p
        simp only [Option.map_some', Option.some.injEq, Prod.mk.injEq] at h
        obtain ⟨hb, hr⟩ := h
        subst hr
        obtain ⟨hcs, hnb⟩ := ih hsp
        subst hcs
        rw [← hb]
        simp [Ne.symm hc, hnb]

theorem scanLiteral_some {rest body rem : List Char}
    (h : scanLiteral rest = some (body, rem)) :
    ∃ c1 b, body = c1 :: b ∧ rest = c1 :: (b ++ '"' :: rem) ∧ '"' ∉ b := by
  cases rest with
  | nil => simp [scanLiteral] at h
  | cons c1 r2 =>
    simp only [scanLiteral] at h
    cases hsp : splitAtQuote r2 with
    | none => rw [hsp] at h; simp at h
    | some p =>
      rw [hsp] at h
      obtain ⟨pb, pr⟩ := p
      simp only [Option.map_some', Option.some.injEq, Prod.mk.injEq] at h
      obtain ⟨hb, hr⟩ := h
      subst hr
      obtain ⟨hr2, hnb⟩ := splitAtQuote_some hsp
      exact ⟨c1, pb, hb.symm, by rw [hr2], hnb⟩

theorem scanLiteral_none {rest : List Char} (h : scanLiteral rest = none) :
    rest = [] ∨ ∃ c1 r2, rest = c1 :: r2 ∧ '"' ∉ r2 := by
  cases rest with
  | nil => exact Or.inl rfl
  | cons c1 r2 =>
    simp only [scanLiteral] at h
    cases hsp : splitAtQuote r2 with
    | none => exact Or.inr ⟨c1, r2, rfl, splitAtQuote_none hsp⟩
    | some p => rw [hsp] at h; simp at h

theorem parseLoopF_unterm :
    ∀ (n : Nat) (idx : PostIndex) (l : List Char) (pos : Nat)
      (stack : List QueryOperator) (p : Nat),
      parseLoopF idx n l pos stack =
          .error (p, "Unterminated string constant") →
        pos ≤ p ∧ p - pos < l.length ∧ l.get? (p - pos) = some '"' ∧
          ∀ j, p - pos + 2 ≤ j → l.get? j ≠ some '"' := by
  intro n
  induction n with
  | zero =>
    intro idx l pos stack p h
    simp [parseLoopF] at h
  | succ n ih =>
    intro idx l pos stack p h
    cases l with
    | nil => simp [parseLoopF] at h
    | cons c rest =>
      simp only [parseLoopF] at h
      by_cases hamp : c = '&'
      · rw [if_pos hamp] at h
        match stack with
        | [] => simp at h
        | [a] => simp at h
        | a :: b :: s =>
          obtain ⟨h1, h2, h3, h4⟩ := ih idx rest (pos + 1) _ p h
          refine ⟨by omega, by simp; omega, ?_, ?_⟩
          · have hpp : p - pos = (p - (pos + 1)) + 1 := by omega
            rw [hpp, List.get?_cons_succ]
            exact h3
          · intro j hj
            match j, hj with
            | j' + 1, _ =>
              rw [List.get?_cons_succ]
              exact h4 j' (by omega)
      · rw [if_neg hamp] at h
        by_cases hbar : c = '|'
        · rw [if_pos hbar] at h
          match stack with
          | [] => simp at h
          | [a] => simp at h
          | a :: b :: s =>
            obtain ⟨h1, h2, h3, h4⟩ := ih idx rest (pos + 1) _ p h
            refine ⟨by omega, by simp; omega, ?_, ?_⟩
            · have hpp : p - pos = (p - (pos + 1)) + 1 := by omega
              rw [hpp, List.get?_cons_succ]
              exact h3
            · intro j hj
              match j, hj with
              | j' + 1, _ =>
                rw [List.get?_cons_succ]
                exact h4 j' (by omega)
        · rw [if_neg hbar] at h
          by_cases hq : c = '"'
          · rw [if_pos hq] at h
            cases hsc : scanLiteral rest with
            | none =>
              rw [hsc] at h
              simp only [Except.error.injEq, Prod.mk.injEq] at h
              obtain ⟨hp, -⟩ := h
              subst hp
              rcases scanLiteral_none hsc with hrest | ⟨c1, r2, hrest, hnq⟩
              · subst hrest
                refine ⟨le_refl _, by simp, by simp [hq], ?_⟩
                intro j hj
                simp only [Nat.sub_self] at hj
                match j, hj with
                | j' + 1, _ => simp
              · subst hrest
                refine ⟨le_refl _, by simp, by simp [hq], ?_⟩
                intro j hj
                simp only [Nat.sub_self] at hj
                match j, hj with
                | j'' + 2, _ =>
                  rw [List.get?_cons_succ, List.get?_cons_succ]
                  intro hmem
                  exact hnq (List.get?_mem hmem)
            | some pr =>
              obtain ⟨body, rem⟩ := pr
              rw [hsc] at h
              simp only at h
              obtain ⟨h1, h2, h3, h4⟩ := ih idx rem (pos + body.length + 2) _ p h
              obtain ⟨c1, b, hbody, hrest, hnb⟩ := scanLiteral_some hsc
              subst hrest
              have hl : c :: c1 :: (b ++ '"' :: rem) =
                  (c :: c1 :: b ++ ['"']) ++ rem := by simp
              have hlen : (c :: c1 :: b ++ ['"']).length = b.length + 3 := by
                simp
              have hblen : body.length = b.length + 1 := by rw [hbody]; simp
              have hpos : pos + body.length + 2 = pos + b.length + 3 := by omega
              rw [hpos] at h1 h3 h4
              refine ⟨by omega, ?_, ?_, ?_⟩
              · rw [hl]
                simp only [List.length_append, hlen]
                omega
              · rw [hl, List.get?_append_right (by rw [hlen]; omega), hlen]
                have : p - pos - (b.length + 3) = p - (pos + b.length + 3) := by
                  omega
                rw [this]
                exact h3
              · intro j hj
                rw [hl, List.get?_append_right (by rw [hlen]; omega), hlen]
                exact h4 (j - (b.length + 3)) (by omega)
          · rw [if_neg hq] at h
            simp at h

/-! ### Supporting lemmas for the local-id counter -/

theorem runReplicate_head (n : Nat) (hn : 0 < n) :
    (runFrom emptyIndex
        (List.replicate n ((0 : Nat), ([] : List String)))).idMap.head? =
      some (n % 2 ^ 32, 0) := by
  obtain ⟨m, rfl⟩ : ∃ m, n = m + 1 := ⟨n - 1, by omega⟩
  have hsplit : List.replicate (m + 1) ((0 : Nat), ([] : List String)) =
      List.replicate m ((0 : Nat), ([] : List String)) ++
        [((0 : Nat), ([] : List String))] := by
    rw [List.replicate_succ']
  rw [hsplit]
  have happ : runFrom emptyIndex
      (List.replicate m ((0 : Nat), ([] : List String)) ++
        [((0 : Nat), ([] : List String))]) =
      (runFrom emptyIndex
        (List.replicate m ((0 : Nat), ([] : List String)))).addPost 0 [] := by
    simp [runFrom, List.foldl_append]
  rw [happ, addPost_idMap_head, runFrom_nextLocalId]
  simp [emptyIndex]

/-! ### The lock loop: deadlock on duplicate words -/

theorem hasDuplicate_eq_false {l : List String} :
    hasDuplicate l = false ↔ l.Nodup := by
  induction l with
  | nil => simp [hasDuplicate]
  | cons x xs ih => simp [hasDuplicate, List.nodup_cons, ih]

theorem addPostLocked_eq_some {idx : PostIndex} {g : Nat}
    {words : List String} {idx' : PostIndex}
    (h : idx.addPostLocked g words = some idx') :
    (sortStrings words).Nodup ∧ idx' = idx.addPost g words := by
  unfold PostIndex.addPostLocked at h
  cases hd : hasDuplicate (sortStrings words) with
  | true => rw [hd] at h; simp at h
  | false =>
    rw [hd] at h
    simp only [Bool.false_eq_true, if_false, Option.some.injEq] at h
    exact ⟨hasDuplicate_eq_false.mp hd, h.symm⟩

theorem runLocked_foldl_none (rest : List (Nat × List String)) :
    rest.foldl (fun acc p => acc.bind (fun i => i.addPostLocked p.1 p.2))
      (none : Option PostIndex) = none := by
  induction rest with
  | nil => rfl
  | cons p rest ih => simpa using ih

theorem runLocked_indexInv :
    ∀ (h : List (Nat × List String)) (idx idx' : PostIndex),
      runLocked idx h = some idx' → IndexInv idx →
      idx.nextLocalId + h.length < 2 ^ 32 → IndexInv idx' := by
  intro h
  induction h with
  | nil =>
    intro idx idx' hr hI hb
    cases hr
    exact hI
  | cons p rest ih =>
    intro idx idx' hr hI hb
    have hstep : runLocked idx (p :: rest) =
        List.foldl (fun acc q => acc.bind (fun i => i.addPostLocked q.1 q.2))
          (idx.addPostLocked p.1 p.2) rest := rfl
    rw [hstep] at hr
    cases haa : idx.addPostLocked p.1 p.2 with
    | none =>
      rw [haa, runLocked_foldl_none] at hr
      exact Option.noConfusion hr
    | some i1 =>
      rw [haa] at hr
      obtain ⟨hnd, hi1⟩ := addPostLocked_eq_some haa
      have hnodup : p.2.Nodup := ((sortStrings_perm p.2).nodup_iff).mp hnd
      have hctr : i1.nextLocalId = idx.nextLocalId + 1 := by rw [hi1]; rfl
      have hb' : idx.nextLocalId + 1 < 2 ^ 32 := by
        simp only [List.length_cons] at hb; omega
      have hI1 : IndexInv i1 := hi1 ▸ indexInv_addPost hI hnodup hb'
      refine ih i1 idx' hr hI1 ?_
      rw [hctr]
      simp only [List.length_cons] at hb
      omega

theorem runLocked_eq_runFrom :
    ∀ (h : List (Nat × List String)) (idx : PostIndex),
      (∀ p ∈ h, hasDuplicate (sortStrings p.2) = false) →
      runLocked idx h = some (runFrom idx h) := by
  intro h
  induction h with
  | nil => intro idx _; rfl
  | cons p rest ih =>
    intro idx hnd
    have hp : hasDuplicate (sortStrings p.2) = false :=
      hnd p (List.mem_cons_self p rest)
    have hstep : runLocked idx (p :: rest) =
        List.foldl (fun acc q => acc.bind (fun i => i.addPostLocked q.1 q.2))
          (idx.addPostLocked p.1 p.2) rest := rfl
    have ha : idx.addPostLocked p.1 p.2 = some (idx.addPost p.1 p.2) := by
      unfold PostIndex.addPostLocked
      rw [hp]
      simp
    rw [hstep, ha]
    have hrun : runFrom idx (p :: rest) =
        runFrom (idx.addPost p.1 p.2) rest := rfl
    rw [hrun]
    exact ih (idx.addPost p.1 p.2)
      (fun q hq => hnd q (List.mem_cons_of_mem p hq))

/-- The posting list of `"a"` after `n` completed single-term calls: the
ids are the call numbers reduced mod `2 ^ 32`, in call order. -/
theorem addManyA_chainIds : ∀ n : Nat, 1 ≤ n →
    ∃ c : PostSet,
      lookupTab (runFrom emptyIndex
          (List.replicate n ((0 : Nat), (["a"] : List String)))).sets "a" = some c
      ∧ c ≠ [] ∧ chainIds c = (List.range' 1 n).map (fun k => k % 2 ^ 32) := by
  intro n hn
  induction n, hn using Nat.le_induction with
  | base => exact ⟨[[1]], rfl, by simp, by decide⟩
  | succ n hn ih =>
    obtain ⟨c, hc, hcne, hcids⟩ := ih
    have hsplit : List.replicate (n + 1) ((0 : Nat), (["a"] : List String)) =
        List.replicate n ((0 : Nat), (["a"] : List String)) ++
          [((0 : Nat), (["a"] : List String))] := by
      rw [List.replicate_succ']
    have happ : runFrom emptyIndex
        (List.replicate (n + 1) ((0 : Nat), (["a"] : List String))) =
        (runFrom emptyIndex
          (List.replicate n ((0 : Nat), (["a"] : List String)))).addPost 0 ["a"] := by
      rw [hsplit]
      simp [runFrom, List.foldl_append]
    set idxn := runFrom emptyIndex
      (List.replicate n ((0 : Nat), (["a"] : List String))) with hidxn
    have hctr : idxn.nextLocalId = n := by
      rw [hidxn, runFrom_nextLocalId]
      simp [emptyIndex]
    have hsets : (idxn.addPost 0 ["a"]).sets =
        appendAll (ensureSets idxn.sets ["a"]) ["a"] ((n + 1) % 2 ^ 32) := by
      have hdef : (idxn.addPost 0 ["a"]).sets =
          appendAll (ensureSets idxn.sets (sortStrings ["a"]))
            (sortStrings ["a"]) ((idxn.nextLocalId + 1) % 2 ^ 32) := rfl
      rw [hdef, hctr]
      rfl
    refine ⟨c.addPost ((n + 1) % 2 ^ 32), ?_, PostSet.addPost_ne_nil hcne, ?_⟩
    · rw [happ, hsets, lookupTab_appendAll_mem (by simp) (by simp),
        lookupTab_ensureSets, hc]
      simp
    · rw [chainIds_addPost hcne, hcids]
      have hconcat : List.range' 1 (n + 1) = List.range' 1 n ++ [1 + n] :=
        List.range'_1_concat 1 n
      rw [hconcat, List.map_append]
      simp [Nat.add_comm 1 n]

/-- The id stream of `2 ^ 32 + 1` calls is not strictly ascending: the
32-bit wrap makes ids `…, 2 ^ 32 - 1, 0, 1` and `1` repeats. -/
theorem wrap_not_chain' :
    ¬ List.Chain' (· < ·)
      ((List.range' 1 (2 ^ 32 + 1)).map (fun k => k % 2 ^ 32)) := by
  intro hch
  have hpw := List.chain'_iff_pairwise.mp hch
  rw [List.range'_succ, List.map_cons, List.pairwise_cons] at hpw
  obtain ⟨hall, -⟩ := hpw
  have hy : ((2 : Nat) ^ 32 + 1) % 2 ^ 32 ∈
      (List.range' (1 + 1) (2 ^ 32)).map (fun k => k % 2 ^ 32) :=
    List.mem_map_of_mem _ (List.mem_range'_1.mpr (by norm_num))
  have hlt := hall _ hy
  norm_num at hlt

/-! ### Claims -/

/-- C1: the claim states that after `AddPost(g, [t1, …, tn])` a query
`"ti"` with limit at least 1 returns a sequence containing `g`.  The code
violates this: after ingesting `(100, ["alpha", "beta"])`, the query
`"alpha"` (limit 10) panics — the parser leaves the terminal's chunk
cursor at 0, and after emitting `IDs[0]` the cursor goes negative, the
operator steps to the nil `Next` pointer and dereferences it. -/
theorem c1_single_term_recall_panics :
    queryPosts (emptyIndex.addPost 100 ["alpha", "beta"])
      ("\"alpha\"".toList) 10 64 = .panic := rfl

/-- C2 counterexample: the ascending-list invariant fails as stated for
long enough histories.  After `2 ^ 32 + 1` completed `AddPost` calls each
carrying the single term `"a"` (duplicate-free, so every call completes
and no lock deadlock intervenes), the posting list of `"a"` holds the
call numbers reduced mod `2 ^ 32`: the 32-bit local id wraps, the list
ends `…, 2 ^ 32 - 1, 0, 1`, and it is not strictly ascending. -/
theorem c2_counterexample :
    ((runLocked emptyIndex
        (List.replicate (2 ^ 32 + 1) ((0 : Nat), (["a"] : List String)))).map
        (fun idx => chainIds ((lookupTab idx.sets "a").getD [])) =
      some ((List.range' 1 (2 ^ 32 + 1)).map (fun k => k % 2 ^ 32)))
    ∧ ¬ List.Chain' (· < ·)
        ((List.range' 1 (2 ^ 32 + 1)).map (fun k => k % 2 ^ 32)) := by
  refine ⟨?_, wrap_not_chain'⟩
  rw [runLocked_eq_runFrom _ _
    (fun p hp => by rw [List.eq_of_mem_replicate hp]; rfl)]
  obtain ⟨c, hc, -, hcids⟩ := addManyA_chainIds (2 ^ 32 + 1) (by norm_num)
  rw [Option.map_some', hc]
  simp only [Option.getD_some]
  rw [hcids]

/-- C2 (amended): after every completed sequence of at most `2 ^ 32 - 1`
`AddPost` calls, every ingested term's posting list holds local ids in
strictly ascending order.  (An `AddPost` whose term list repeats a term
never completes — its lock loop self-deadlocks — so completed calls are
exactly those with duplicate-free term lists; the length bound is forced
by the 32-bit id wrap of the counterexample.) -/
theorem c2_ascending_amended :
    ∀ (h : List (Nat × List String)) (idx' : PostIndex),
      runLocked emptyIndex h = some idx' → h.length < 2 ^ 32 →
      ∀ t c, lookupTab idx'.sets t = some c →
        List.Chain' (· < ·) (chainIds c) := by
  intro h idx' hr hlen t c hc
  exact ((runLocked_indexInv h emptyIndex idx' hr indexInv_empty
    (by simpa [emptyIndex] using hlen)) t c hc).2.1

theorem c2_witness : List.Chain' (· < ·) (chainIds [[1]]) :=
  c2_ascending_amended [(100, ["alpha", "beta"])]
    (emptyIndex.addPost 100 ["alpha", "beta"]) rfl (by decide)
    "alpha" [[1]] rfl

/-- C3: the claim states `next_chunk` fills the calling `QueryNode`
frame's buffer and `current()` reads back the filled value.  In the code
the 128-slot array is passed **by value**, so the callee fills a copy:
on a terminal whose stream starts at id 200, `NextChunk`'s copy holds
200 at slot 0 with fill count 128, yet after `MoveNext` the frame's own
buffer is still all zeros and `current()` returns 0, not 200. -/
theorem c3_buffer_by_value :
    ((termNextChunk [List.range' 1 200] 199 zerosBuf).map
        (fun r => (r.1.getD 0 0, r.2.1)) = some (200, 128))
    ∧ moveNextF 8 (QueryNode.mk zerosBuf 0 0 (.terminal [List.range' 1 200] 199))
        = .ok (QueryNode.mk zerosBuf 128 0 (.terminal [List.range' 1 200] 71), true)
    ∧ QueryNode.current
        (QueryNode.mk zerosBuf 128 0 (.terminal [List.range' 1 200] 71)) = 0
    ∧ (200 : Nat) ≠ 0 :=
  ⟨rfl, rfl, rfl, by decide⟩

/-- C4: the claim states a parser-built terminal starts with its chunk
cursor at `head.count - 1` and returns 0 once no chunk remains.  The
code builds `&TerminalOperator{Current: chunk}`, leaving the cursor at
the zero value 0 (here `head.count - 1 = 1` after two posts), and on
exhaustion it steps to the nil `Next` pointer and dereferences it
(modelled as `none`) instead of returning 0. -/
theorem c4_terminal_scan :
    parseQuery ((emptyIndex.addPost 10 ["a"]).addPost 20 ["a"])
        ("\"a\"".toList)
      = .ok (QueryNode.mk zerosBuf 0 0 (.terminal [[1, 2]] 0))
    ∧ ((2 : Int) - 1 ≠ 0)
    ∧ termNextChunk [[1, 2]] 0 zerosBuf = none :=
  ⟨rfl, by decide, rfl⟩

/-- C5: the claim states the ingestion path deduplicates terms after
sorting so the local id is appended exactly once.  The code has no
deduplication: after sorting, `["a", "a"]` still carries both
occurrences, both resolve to the same `*PostSet`, and the lock loop then
locks that set's mutex twice — `AddPost(7, ["a", "a"])` self-deadlocks
before drawing a local id or appending anything, rather than
deduplicating and appending exactly once. -/
theorem c5_no_dedup :
    sortStrings ["a", "a"] = ["a", "a"]
    ∧ hasDuplicate (sortStrings ["a", "a"]) = true
    ∧ emptyIndex.addPostLocked 7 ["a", "a"] = none := ⟨rfl, rfl, rfl⟩

/-- C6 counterexample: parsing `"a" &` does not produce "Need two
operands for &" at offset 4; the space at offset 3 is not recognized and
parsing fails there first. -/
theorem c6_counterexample :
    ¬ (parseQuery emptyIndex ("\"a\" &".toList) =
        .error (4, "Need two operands for &")) := by
  intro h
  have h0 : parseQuery emptyIndex ("\"a\" &".toList) =
      .error (3, "Unexpected character") := rfl
  rw [h0] at h
  simp at h

/-- C6 (amended): for every index, parsing the five characters `"a" &`
returns a parse error at byte offset 3 with message "Unexpected
character" (whitespace is not recognized by the scanner). -/
theorem c6_amended : ∀ idx : PostIndex,
    parseQuery idx ("\"a\" &".toList) = .error (3, "Unexpected character") :=
  fun _ => rfl

/-- C7 counterexample: the claim as stated fails.  The query `' "abc'`
(space, quote, a, b, c) contains an opening quote at offset 1 that is
never matched by a closing quote, yet parsing does not return
"Unterminated string constant" at offset 1: the scanner rejects the
space first, with "Unexpected character" at offset 0. -/
theorem c7_counterexample :
    parseQuery emptyIndex (" \"abc".toList) = .error (0, "Unexpected character")
    ∧ ¬ (parseQuery emptyIndex (" \"abc".toList) =
          .error (1, "Unterminated string constant")) := by
  refine ⟨rfl, ?_⟩
  intro hbad
  have h0 : parseQuery emptyIndex (" \"abc".toList) =
      .error (0, "Unexpected character") := rfl
  rw [h0] at hbad
  simp at hbad

/-- C7 (amended): whenever parsing returns "Unterminated string constant"
at position `p`, position `p` holds the opening quote of the offending
literal and no closing quote follows its forced first body character
(no `'"'` at any position `≥ p + 2`); queries whose unmatched quote is
preceded by input the parser rejects report that earlier error instead.
In particular parsing `"unterminated` yields this error at offset 0. -/
theorem c7_unterminated_literal :
    (∀ (idx : PostIndex) (q : List Char) (p : Nat),
        parseQuery idx q = .error (p, "Unterminated string constant") →
          q.get? p = some '"' ∧ ∀ j, p + 2 ≤ j → q.get? j ≠ some '"')
    ∧ ∀ idx : PostIndex,
        parseQuery idx ("\"unterminated".toList) =
          .error (0, "Unterminated string constant") := by
  constructor
  · intro idx q p h
    unfold parseQuery at h
    cases hr : parseLoopF idx (q.length + 1) q 0 [] with
    | error e =>
      rw [hr] at h
      simp only at h
      obtain ⟨rfl⟩ : e = (p, "Unterminated string constant") := by
        cases h; rfl
      obtain ⟨-, -, h3, h4⟩ := parseLoopF_unterm (q.length + 1) idx q 0 [] p hr
      simp only [Nat.sub_zero] at h3 h4
      exact ⟨h3, h4⟩
    | ok stack =>
      rw [hr] at h
      match stack with
      | [] => simp at h
      | [op] => simp at h
      | a :: b :: s => simp at h
  · intro idx
    rfl

theorem c7_witness :
    ("\"unterminated".toList).get? 0 = some '"'
    ∧ ∀ j, 0 + 2 ≤ j → ("\"unterminated".toList).get? j ≠ some '"' :=
  c7_unterminated_literal.1 emptyIndex ("\"unterminated".toList) 0 rfl

/-- C8 counterexample: the local-id counter is 32 bits wide, so the
claim "each subsequent `AddPost` assigns an id exactly one greater, and
ids are never reused" fails at the wrap: the `2 ^ 32`-th call assigns 0
(not `2 ^ 32 - 1 + 1`), and the `2 ^ 32 + 1`-st call reuses id 1, the id
of the first call. -/
theorem c8_counterexample :
    ((runFrom emptyIndex
        (List.replicate (2 ^ 32 - 1) ((0 : Nat), ([] : List String)))).idMap.head?
      = some (2 ^ 32 - 1, 0))
    ∧ ((runFrom emptyIndex
        (List.replicate (2 ^ 32) ((0 : Nat), ([] : List String)))).idMap.head?
      = some (0, 0))
    ∧ ((runFrom emptyIndex
        (List.replicate (2 ^ 32 + 1) ((0 : Nat), ([] : List String)))).idMap.head?
      = some (1, 0))
    ∧ ((runFrom emptyIndex
        (List.replicate 1 ((0 : Nat), ([] : List String)))).idMap.head?
      = some (1, 0))
    ∧ (0 : Nat) ≠ 2 ^ 32 - 1 + 1 := by
  refine ⟨?_, ?_, ?_, ?_, by norm_num⟩ <;>
    rw [runReplicate_head _ (by norm_num)] <;> norm_num

/-- C8 (amended): the first `AddPost` assigns local id 1 and the `k`-th
call assigns `k % 2 ^ 32` (one greater than its predecessor modulo the
32-bit width); within the first `2 ^ 32 - 1` calls no id is ever
reused. -/
theorem c8_amended : ∀ h : List (Nat × List String),
    ((runFrom emptyIndex h).idMap.map Prod.fst =
      ((List.range' 1 h.length).map (fun k => k % 2 ^ 32)).reverse)
    ∧ (∀ g ws, ((runFrom emptyIndex h).addPost g ws).idMap.head? =
        some ((h.length + 1) % 2 ^ 32, g))
    ∧ (h.length < 2 ^ 32 →
        ((runFrom emptyIndex h).idMap.map Prod.fst).Nodup) := by
  intro h
  have h1 := runFrom_idMap_fst emptyIndex h
  have he : emptyIndex.idMap.map Prod.fst = ([] : List Nat) := rfl
  have hz : emptyIndex.nextLocalId = 0 := rfl
  rw [he, hz, List.append_nil] at h1
  simp only [Nat.zero_add] at h1
  refine ⟨h1, ?_, ?_⟩
  · intro g ws
    rw [addPost_idMap_head, runFrom_nextLocalId]
    simp [emptyIndex]
  · intro hlen
    rw [h1, List.nodup_reverse]
    have hid : (List.range' 1 h.length).map (fun k => k % 2 ^ 32) =
        List.range' 1 h.length := by
      have := List.map_congr_left (l := List.range' 1 h.length)
        (f := fun k => k % 2 ^ 32) (g := id) ?_
      · simpa using this
      · intro x hx
        have hx' : 1 ≤ x ∧ x < 1 + h.length := List.mem_range'_1.mp hx
        simp only [id]
        exact Nat.mod_eq_of_lt (by omega)
    rw [hid]
    exact List.nodup_range' 1 h.length

theorem c8_witness :
    ((runFrom emptyIndex [((42 : Nat), (["w"] : List String))]).idMap.map
      Prod.fst).Nodup :=
  (c8_amended [((42 : Nat), ["w"])]).2.2 (by decide)

/-- C9: the claim states `"x" "y" &` and `"y" "x" &` always produce the
same set of result ids.  After ingesting `(100, ["x"])` (with `"y"`
unknown), the first query returns the empty result — the unknown-term
child ends the intersection before the `"x"` terminal is pulled — while
the second pulls the `"x"` terminal first and panics on the nil `Next`
chunk pointer.  The two orders are therefore not equivalent on this
code. -/
theorem c9_and_operand_order :
    queryPosts (emptyIndex.addPost 100 ["x"]) ("\"x\"\"y\"&".toList) 10 64
      = .results []
    ∧ queryPosts (emptyIndex.addPost 100 ["x"]) ("\"y\"\"x\"&".toList) 10 64
      = .panic := ⟨rfl, rfl⟩

/-- C10: a scanned term literal always has a nonempty body — the scanner
unconditionally consumes the character after the opening quote — and the
two-character query `""` is rejected as an unterminated string constant
at offset 0 rather than parsed as an empty-term atom. -/
theorem c10_no_empty_literal :
    (∀ (rest body rem : List Char),
        scanLiteral rest = some (body, rem) → body ≠ [])
    ∧ ∀ idx : PostIndex,
        parseQuery idx ("\"\"".toList) =
          .error (0, "Unterminated string constant") := by
  constructor
  · intro rest body rem h
    obtain ⟨c1, b, hbody, -, -⟩ := scanLiteral_some h
    subst hbody
    simp
  · intro idx
    rfl

theorem c10_witness : (['a'] : List Char) ≠ [] :=
  c10_no_empty_literal.1 ['a', '"'] ['a'] [] rfl
